import Mathlib

/-!
Verification of the annotation/highlighting core of the repository.

The embedding follows two source files:
  - src/utils/tag-grouping.ts: groupTags, areTagsSimilar, levenshteinDistance;
  - the Highlighter component (src/unnamed/part_004): renderText (the
    segment builder), getAbsoluteOffset (the rendered-offset resolver),
    handleMouseUp / handleAddAnnotation (span insertion path),
    handleChangeTag (retag) and handleDeleteAnnotation (soft delete).

JavaScript strings are modelled as List Char, JavaScript numbers that hold
character offsets as Int (the resolver uses -1 as a failure sentinel and
the builder compares and subtracts offsets), and the Firestore annotation
documents as a Lean structure.
-/

/-! ## StringMetric: src/utils/tag-grouping.ts -/

/-- Lowercasing of a JavaScript string (String.prototype.toLowerCase),
character by character. -/
def toLowerStr (s : String) : String :=
  ⟨s.data.map Char.toLower⟩

/-- Whether the first list is an initial run of the second. -/
def leadsList : List Char → List Char → Bool
  | [], _ => true
  | _ :: _, [] => false
  | n :: ns, h :: hs => n = h && leadsList ns hs

/-- JavaScript String.prototype.includes: the needle (first argument)
occurs contiguously in the haystack (second argument). The empty needle
occurs in every haystack. -/
def includesList (needle : List Char) : List Char → Bool
  | [] => leadsList needle []
  | h :: t => leadsList needle (h :: t) || includesList needle t

/-- One cell-by-cell pass of the inner loop of levenshteinDistance
(source lines 60-74): given the character b(i-1) of the current row, the
remaining characters of a, the tail of the previous matrix row starting
at column j-1, and the value of the current row at column j-1, produce
the current row from column j on.  The cell formula is the one of the
source: matrix(i-1)(j-1) on a character match, otherwise
min(substitution, min(insertion, deletion)) + 1. -/
def levRowAux (bc : Char) : List Char → List Nat → Nat → List Nat
  | [], _, _ => []
  | ac :: as, p0 :: p1 :: ps, cur =>
      let e := if bc = ac then p0 else min (p0 + 1) (min (cur + 1) (p1 + 1))
      e :: levRowAux bc as (p1 :: ps) e
  | _ :: _, _, _ => []

/-- The outer loop of levenshteinDistance: fold the rows for the
characters of b over the row for the empty prefix of b, keeping the row
index (each row i starts with matrix(i)(0) = i). -/
def levGo (a : List Char) : List Char → List Nat → Nat → List Nat
  | [], row, _ => row
  | bc :: bs, row, i => levGo a bs (i :: levRowAux bc a row i) (i + 1)

/-- levenshteinDistance from src/utils/tag-grouping.ts: the dynamic
programming table is filled row by row (rows indexed by b, columns by a,
row 0 being 0,1,...,length of a) and the entry at
(length of b, length of a) is returned. -/
def levenshteinDistance (a b : String) : Nat :=
  (levGo a.data b.data (List.range (a.data.length + 1)) 1).getD a.data.length 0

/-- areTagsSimilar from src/utils/tag-grouping.ts: case-insensitive
equality, case-insensitive substring containment in either direction, or
Levenshtein distance of the lowercased strings at most the threshold. -/
def areTagsSimilar (s1 s2 : String) (threshold : Nat) : Bool :=
  (toLowerStr s1 == toLowerStr s2) ||
  (includesList (toLowerStr s2).data (toLowerStr s1).data ||
   includesList (toLowerStr s1).data (toLowerStr s2).data) ||
  (levenshteinDistance (toLowerStr s1) (toLowerStr s2) ≤ threshold)

/-! ## TagClusterer: groupTags from src/utils/tag-grouping.ts -/

/-- A tag group as in the source: a name and the member labels. -/
structure TagGroup where
  name : String
  tags : List String
deriving DecidableEq, Repr

/-- The comparison JavaScript Array.prototype.sort applies to strings
without a comparator: lexicographic on the code units. -/
def jsStrLe : List Char → List Char → Bool
  | [], _ => true
  | _ :: _, [] => false
  | c :: cs, d :: ds => if c = d then jsStrLe cs ds else decide (c.toNat < d.toNat)

/-- The inner loop of groupTags (source lines 23-30): scan the sorted
tags, skip the visited ones, and move every tag similar to the group
representative into the group, marking it visited.  Returns the members
added and the grown visited set. -/
def collectSimilar (tag : String) (threshold : Nat) :
    List String → List String → List String × List String
  | [], visited => ([], visited)
  | other :: rest, visited =>
      if visited.contains other then collectSimilar tag threshold rest visited
      else if areTagsSimilar tag other threshold then
        let r := collectSimilar tag threshold rest (other :: visited)
        (other :: r.1, r.2)
      else collectSimilar tag threshold rest visited

/-- The outer loop of groupTags (source lines 14-32): each unvisited tag
in sorted order opens a group named after itself. -/
def groupTagsOuter (threshold : Nat) (all : List String) :
    List String → List String → List TagGroup
  | [], _ => []
  | tag :: rest, visited =>
      if visited.contains tag then groupTagsOuter threshold all rest visited
      else
        let r := collectSimilar tag threshold all (tag :: visited)
        ⟨tag, tag :: r.1⟩ :: groupTagsOuter threshold all rest r.2

/-- groupTags from src/utils/tag-grouping.ts.  The source copies the tag
array and sorts it with the default (stable, code-unit lexicographic)
sort before the visited-set sweep. -/
def groupTags (tags : List String) (threshold : Nat := 3) : List TagGroup :=
  let sortedTags := List.insertionSort (fun a b : String => jsStrLe a.data b.data = true) tags
  groupTagsOuter threshold sortedTags sortedTags []

/-! ## The annotation data and the segment builder (Highlighter component) -/

/-- An annotation document as written to the annotations collection by
handleAddAnnotation and mutated by handleChangeTag and
handleDeleteAnnotation.  deleted_at is the soft-delete tombstone. -/
structure AnnDoc where
  id : String
  paper_id : String
  user_id : String
  start_index : Int
  end_index : Int
  tag_id : String
  text_content : List Char
  created_at : String
  updated_at : String
  deleted_at : Option String
deriving DecidableEq, Repr

/-- The two segment kinds of renderText; the source calls them
"text" and "highlight". -/
inductive SegKind where
  | text
  | highlight
deriving DecidableEq, Repr

/-- A display segment as built by renderText. -/
structure Segment where
  text : List Char
  kind : SegKind
  id : String
  tagId : Option String
deriving DecidableEq, Repr

/-- Index clamping of JavaScript String.prototype.slice: a negative
index counts from the end (clamped at 0), a non-negative one is clamped
at the length. -/
def sliceIdx (len : Nat) (i : Int) : Nat :=
  if i < 0 then ((len : Int) + i).toNat else min i.toNat len

/-- JavaScript String.prototype.slice with both arguments. -/
def jsSlice (s : List Char) (a b : Int) : List Char :=
  ((s.drop (sliceIdx s.length a)).take (sliceIdx s.length b - sliceIdx s.length a))

/-- The key of a plain segment in the source: the string text-N for the
cursor position N. -/
def plainSegId (lastIndex : Int) : String :=
  "text-" ++ toString lastIndex

/-- The sweep of renderText (source lines 425-462) over the sorted
annotations, carrying the cursor lastIndex: a gap before the annotation
becomes a plain segment; an annotation whose end lies beyond the cursor
becomes a highlight segment from max(start, cursor) to its end and moves
the cursor; any other annotation emits nothing.  The text remaining
after the sweep becomes a final plain segment. -/
def buildSegs (text : List Char) : List AnnDoc → Int → List Segment
  | [], lastIndex =>
      if lastIndex < (text.length : Int) then
        [⟨jsSlice text lastIndex (text.length : Int), SegKind.text, plainSegId lastIndex, none⟩]
      else []
  | ann :: rest, lastIndex =>
      (if ann.start_index > lastIndex then
        [⟨jsSlice text lastIndex ann.start_index, SegKind.text, plainSegId lastIndex, none⟩]
      else []) ++
      (if ann.end_index > lastIndex then
        ⟨jsSlice text (max ann.start_index lastIndex) ann.end_index,
          SegKind.highlight, ann.id, some ann.tag_id⟩ ::
        buildSegs text rest ann.end_index
      else buildSegs text rest lastIndex)

/-- renderText from the Highlighter component: sort the annotations by
start_index with the stable comparator sort of the source
(a.start_index - b.start_index) and run the segment sweep from cursor
0. -/
def renderText (text : List Char) (anns : List AnnDoc) : List Segment :=
  buildSegs text
    (List.insertionSort (fun a b : AnnDoc => a.start_index ≤ b.start_index) anns) 0

/-- Concatenation of the text fields of a segment list. -/
def segsText (segs : List Segment) : List Char :=
  (segs.map Segment.text).flatten

/-- Whether a segment is plain. -/
def isPlainSeg (s : Segment) : Bool :=
  match s.kind with
  | SegKind.text => true
  | SegKind.highlight => false

/-- No two adjacent segments are both plain. -/
def noAdjPlain : List Segment → Bool
  | s :: t :: rest => !(isPlainSeg s && isPlainSeg t) && noAdjPlain (t :: rest)
  | _ => true

/-! ## getAbsoluteOffset (the rendered-position resolver) -/

/-- The tree walk of getAbsoluteOffset (source lines 325-337): the
rendered view is the ordered list of text nodes (one per segment), the
sought node is given by its index, and the walk accumulates the lengths
of the nodes before it.  When the node is reached the accumulated offset
plus the local offset is returned; when the walk ends without reaching
it the sentinel -1 is returned. -/
def walkNodes (offset : Nat) : List (List Char) → Nat → Nat → Int
  | [], _, _ => -1
  | _ :: _, 0, acc => ((acc + offset : Nat) : Int)
  | n :: rest, t + 1, acc => walkNodes offset rest t (acc + n.length)

/-- getAbsoluteOffset from the Highlighter component, over the list of
rendered text nodes. -/
def getAbsoluteOffset (nodes : List (List Char)) (node : Nat) (offset : Nat) : Int :=
  walkNodes offset nodes node 0

/-! ## The span mutation handlers -/

/-- The error kinds of the span store operations. -/
inductive SpanError where
  | InvalidRange
  | NotFound
deriving DecidableEq, Repr

/-- The guard of handleMouseUp (source line 313) on the two resolved
selection offsets: both differ from the resolver sentinel -1 and the
start lies strictly before the end.  Only a selection passing this guard
reaches handleAddAnnotation. -/
def handleMouseUpGuard (s e : Int) : Bool :=
  s != -1 && e != -1 && decide (s < e)

/-- The insertion path handleMouseUp followed by handleAddAnnotation: a
selection passing the guard is stored as a new annotation document with
the given tag, cached selection text and timestamps; a selection failing
the guard stores nothing, reported here as InvalidRange. -/
def insertSpan (store : List AnnDoc) (paperId userId : String) (s e : Int)
    (selText : List Char) (tagId newId now : String) :
    Except SpanError (List AnnDoc) :=
  if handleMouseUpGuard s e then
    Except.ok (store ++ [⟨newId, paperId, userId, s, e, tagId, selText, now, now, none⟩])
  else Except.error SpanError.InvalidRange

/-- handleChangeTag (source lines 368-376): updateDoc on the annotations
collection sets tag_id and updated_at of the document with the given id.
Firestore updateDoc rejects when no document with that id exists at all,
reported here as NotFound; a soft-deleted document still exists and is
updated like any other. -/
def handleChangeTag (store : List AnnDoc) (annotationId newTagId now : String) :
    Except SpanError (List AnnDoc) :=
  if store.any (fun a => a.id = annotationId) then
    Except.ok (store.map fun a =>
      if a.id = annotationId then { a with tag_id := newTagId, updated_at := now } else a)
  else Except.error SpanError.NotFound

/-- handleDeleteAnnotation (source lines 358-366): the soft delete sets
deleted_at on the document with the given id. -/
def handleDeleteAnn (store : List AnnDoc) (annotationId now : String) :
    Except SpanError (List AnnDoc) :=
  if store.any (fun a => a.id = annotationId) then
    Except.ok (store.map fun a =>
      if a.id = annotationId then { a with deleted_at := some now } else a)
  else Except.error SpanError.NotFound

/-! ## Specification-side definitions

These two definitions are not translated from the source: levSpec is the
textbook recursive Levenshtein distance (unit-cost single-character
insertion, deletion and substitution) written from the specification
wording, against which the matrix implementation is compared; specRow
describes the content of one dynamic-programming row in terms of levSpec
and exists only to state the row invariant. -/

/-- The Levenshtein edit distance, textbook recursion: distance to the
empty string is the length of the other string; otherwise either the
head characters agree and are kept, or one of unit-cost substitution,
deletion of the head of the first string, or insertion of the head of
the second string is applied. -/
def levSpec : List Char → List Char → Nat
  | [], ys => ys.length
  | xs, [] => xs.length
  | x :: xs, y :: ys =>
      if x = y then levSpec xs ys
      else 1 + min (levSpec xs ys) (min (levSpec (x :: xs) ys) (levSpec xs (y :: ys)))
termination_by xs ys => xs.length + ys.length

/-- The row of prefix distances levSpec u (v plus successive prefixes of
the third argument), used to state the dynamic-programming row
invariant. -/
def specRow (u : List Char) : List Char → List Char → List Nat
  | _, [] => []
  | v, ac :: as => levSpec u (v ++ [ac]) :: specRow u (v ++ [ac]) as

/-- The first span of the pinned overlap example: offsets 0 to 10 with
tag tagA. -/
def spanA : AnnDoc :=
  ⟨"a1", "p1", "u1", 0, 10, "tagA", "abcdefghij".data, "t0", "t0", none⟩

/-- The second span of the pinned overlap example, nested inside the
first: offsets 5 to 8 with tag tagB. -/
def spanB : AnnDoc :=
  ⟨"a2", "p1", "u1", 5, 8, "tagB", "fgh".data, "t0", "t0", none⟩

/-! ## Levenshtein distance: the matrix implementation meets levSpec -/

theorem levSpec_nil_left (ys : List Char) : levSpec [] ys = ys.length := by
  cases ys <;> simp [levSpec]

theorem levSpec_nil_right (xs : List Char) : levSpec xs [] = xs.length := by
  cases xs <;> simp [levSpec]

theorem levSpec_cons_cons (x y : Char) (xs ys : List Char) :
    levSpec (x :: xs) (y :: ys) =
      if x = y then levSpec xs ys
      else 1 + min (levSpec xs ys) (min (levSpec (x :: xs) ys) (levSpec xs (y :: ys))) := by
  simp [levSpec]

theorem levSpec_comm : (xs ys : List Char) → levSpec xs ys = levSpec ys xs
  | [], ys => by simp [levSpec_nil_left, levSpec_nil_right]
  | x :: xs, [] => by simp [levSpec_nil_left, levSpec_nil_right]
  | x :: xs, y :: ys => by
      have h1 := levSpec_comm xs ys
      have h2 := levSpec_comm (x :: xs) ys
      have h3 := levSpec_comm xs (y :: ys)
      rw [levSpec_cons_cons, levSpec_cons_cons]
      by_cases hxy : x = y
      · simp [hxy, eq_comm, h1]
      · have hyx : ¬ y = x := fun h => hxy h.symm
        simp only [if_neg hxy, if_neg hyx]
        omega
termination_by xs ys => xs.length + ys.length

theorem min9_perm (u1 u2 u3 v1 v2 v3 w1 w2 w3 : Nat) :
    min u1 (min u2 (min u3 (min v1 (min v2 (min v3 (min w1 (min w2 w3))))))) =
    min u1 (min v1 (min w1 (min u2 (min v2 (min w2 (min u3 (min v3 w3))))))) := by
  simp only [min_comm, min_left_comm, min_assoc]

theorem levMinTranspose (u1 u2 u3 v1 v2 v3 w1 w2 w3 : Nat) :
    1 + min (1 + min u1 (min u2 u3)) (min (1 + min v1 (min v2 v3)) (1 + min w1 (min w2 w3))) =
    1 + min (1 + min u1 (min v1 w1)) (min (1 + min u2 (min v2 w2)) (1 + min u3 (min v3 w3))) := by
  simp only [min_add_add_left]
  simp only [min_assoc]
  rw [min9_perm]

theorem levSpec_snoc : (u v : List Char) → (x y : Char) →
    levSpec (u ++ [x]) (v ++ [y]) =
      if x = y then levSpec u v
      else 1 + min (levSpec u v) (min (levSpec (u ++ [x]) v) (levSpec u (v ++ [y])))
  | [], [], x, y => by
      simp only [List.nil_append]
      exact levSpec_cons_cons x y [] []
  | [], d :: ds, x, y => by
      have IH := levSpec_snoc [] ds x y
      simp only [List.nil_append, List.cons_append] at IH ⊢
      rw [levSpec_cons_cons x d [] (ds ++ [y])]
      rw [levSpec_cons_cons x d [] ds]
      rw [IH]
      simp only [levSpec_nil_left, List.length_append, List.length_cons, List.length_nil]
      by_cases hxd : x = d <;> by_cases hxy : x = y
      · simp only [if_pos hxd, if_pos hxy]
      · simp only [if_pos hxd, if_neg hxy]
        omega
      · simp only [if_neg hxd, if_pos hxy]
        omega
      · simp only [if_neg hxd, if_neg hxy]
  | c :: cs, [], x, y => by
      have IH := levSpec_snoc cs [] x y
      simp only [List.nil_append, List.cons_append] at IH ⊢
      rw [levSpec_cons_cons c y (cs ++ [x]) []]
      rw [levSpec_cons_cons c y cs []]
      rw [IH]
      simp only [levSpec_nil_left, levSpec_nil_right, List.length_append,
        List.length_cons, List.length_nil]
      by_cases hcy : c = y <;> by_cases hxy : x = y
      · simp only [if_pos hcy, if_pos hxy]
      · simp only [if_pos hcy, if_neg hxy]
        omega
      · simp only [if_neg hcy, if_pos hxy]
        omega
      · simp only [if_neg hcy, if_neg hxy]
  | c :: cs, d :: ds, x, y => by
      have IH1 := levSpec_snoc cs ds x y
      have IH2 := levSpec_snoc cs (d :: ds) x y
      have IH3 := levSpec_snoc (c :: cs) ds x y
      simp only [List.nil_append, List.cons_append] at IH1 IH2 IH3 ⊢
      rw [levSpec_cons_cons c d (cs ++ [x]) (ds ++ [y])]
      rw [levSpec_cons_cons c d cs ds]
      rw [levSpec_cons_cons c d (cs ++ [x]) ds]
      rw [levSpec_cons_cons c d cs (ds ++ [y])]
      rw [IH1, IH2, IH3]
      by_cases hcd : c = d <;> by_cases hxy : x = y
      · simp only [if_pos hcd, if_pos hxy]
      · simp only [if_pos hcd, if_neg hxy]
      · simp only [if_neg hcd, if_pos hxy]
      · simp only [if_neg hcd, if_neg hxy]
        exact levMinTranspose (levSpec cs ds) (levSpec (cs ++ [x]) ds) (levSpec cs (ds ++ [y]))
          (levSpec (c :: cs) ds) (levSpec (c :: (cs ++ [x])) ds) (levSpec (c :: cs) (ds ++ [y]))
          (levSpec cs (d :: ds)) (levSpec (cs ++ [x]) (d :: ds)) (levSpec cs (d :: (ds ++ [y])))
termination_by u v => u.length + v.length
theorem levRowAux_spec (bc : Char) (u : List Char) : ∀ (as v : List Char),
    levRowAux bc as (levSpec u v :: specRow u v as) (levSpec (u ++ [bc]) v) =
      specRow (u ++ [bc]) v as
  | [], v => by simp [levRowAux, specRow]
  | ac :: as, v => by
      have he : (if bc = ac then levSpec u v
          else min (levSpec u v + 1)
            (min (levSpec (u ++ [bc]) v + 1) (levSpec u (v ++ [ac]) + 1))) =
          levSpec (u ++ [bc]) (v ++ [ac]) := by
        rw [levSpec_snoc]
        by_cases h : bc = ac
        · simp [h]
        · simp only [if_neg h]; omega
      simp only [specRow, levRowAux]
      rw [he]
      rw [levRowAux_spec bc u as (v ++ [ac])]

theorem specRow_nil_row : ∀ (as v : List Char),
    levSpec [] v :: specRow [] v as = (List.range (as.length + 1)).map (v.length + ·)
  | [], v => by simp [specRow, levSpec_nil_left, List.range_succ]
  | ac :: as, v => by
      have IH := specRow_nil_row as (v ++ [ac])
      simp only [specRow, List.length_cons]
      rw [IH]
      rw [List.range_succ_eq_map (as.length + 1)]
      simp only [List.map_cons, List.map_map, levSpec_nil_left, List.length_append,
        List.length_cons, List.length_nil, Nat.add_zero]
      congr 1
      apply List.map_congr_left
      intro j _
      simp only [Function.comp_apply]
      omega

theorem init_row (a : List Char) :
    List.range (a.length + 1) = levSpec [] [] :: specRow [] [] a := by
  have h := specRow_nil_row a []
  simp only [List.length_nil] at h
  rw [h]
  simp only [Nat.zero_add]
  simp

theorem levGo_spec (a : List Char) : ∀ (bs u : List Char) (i : Nat), i = u.length + 1 →
    levGo a bs (levSpec u [] :: specRow u [] a) i =
      levSpec (u ++ bs) [] :: specRow (u ++ bs) [] a
  | [], u, i, hi => by simp [levGo]
  | bc :: bs, u, i, hi => by
      simp only [levGo]
      have hrow : (i :: levRowAux bc a (levSpec u [] :: specRow u [] a) i : List Nat)
          = levSpec (u ++ [bc]) [] :: specRow (u ++ [bc]) [] a := by
        have h0 : i = levSpec (u ++ [bc]) [] := by
          rw [levSpec_nil_right]; simp [hi]
        rw [h0]
        rw [levRowAux_spec bc u a []]
      rw [hrow]
      rw [List.append_cons u bc bs]
      exact levGo_spec a bs (u ++ [bc]) (i + 1) (by simp [hi])

theorem specRow_getD (u : List Char) : ∀ (as v : List Char),
    (levSpec u v :: specRow u v as).getD as.length 0 = levSpec u (v ++ as)
  | [], v => by simp [specRow]
  | ac :: as, v => by
      have IH := specRow_getD u as (v ++ [ac])
      simp only [specRow, List.length_cons, List.getD_cons_succ]
      rw [IH]
      simp

theorem levenshteinDistance_eq (a b : String) :
    levenshteinDistance a b = levSpec a.data b.data := by
  unfold levenshteinDistance
  rw [init_row a.data]
  rw [levGo_spec a.data b.data [] 1 (by simp)]
  simp only [List.nil_append]
  rw [specRow_getD b.data a.data []]
  simp only [List.nil_append]
  exact levSpec_comm b.data a.data

/-! ## Slice and segment lemmas -/

theorem sliceIdx_le_len (len : Nat) (i : Int) : sliceIdx len i ≤ len := by
  unfold sliceIdx
  split_ifs <;> omega

theorem sliceIdx_mono (len : Nat) (p q : Int) (h0 : 0 ≤ p) (hpq : p ≤ q) :
    sliceIdx len p ≤ sliceIdx len q := by
  unfold sliceIdx
  split_ifs <;> omega

theorem sliceIdx_zero (len : Nat) : sliceIdx len 0 = 0 := by
  unfold sliceIdx
  simp

theorem sliceIdx_of_ge_len (len : Nat) (i : Int) (h : (len : Int) ≤ i) :
    sliceIdx len i = len := by
  unfold sliceIdx
  split_ifs <;> omega

theorem take_drop_splice (s : List Char) (f g h : Nat) (hfg : f ≤ g) (hgh : g ≤ h) :
    (s.drop f).take (g - f) ++ (s.drop g).take (h - g) = (s.drop f).take (h - f) := by
  have h1 : List.drop g s = List.drop (g - f) (List.drop f s) := by
    rw [List.drop_drop]
    congr 1
    omega
  rw [h1, ← List.take_add]
  congr 1
  omega

theorem jsSlice_splice (s : List Char) (p q r : Int) (h0 : 0 ≤ p) (hpq : p ≤ q)
    (hqr : sliceIdx s.length q ≤ sliceIdx s.length r) :
    jsSlice s p q ++ jsSlice s q r = jsSlice s p r := by
  unfold jsSlice
  exact take_drop_splice s _ _ _ (sliceIdx_mono s.length p q h0 hpq) hqr

theorem jsSlice_zero_len (s : List Char) : jsSlice s 0 (s.length : Int) = s := by
  unfold jsSlice
  rw [sliceIdx_zero, sliceIdx_of_ge_len s.length (s.length : Int) le_rfl]
  simp

theorem jsSlice_ge_len_empty (s : List Char) (p : Int) (h : (s.length : Int) ≤ p) :
    jsSlice s p (s.length : Int) = [] := by
  unfold jsSlice
  rw [sliceIdx_of_ge_len s.length p h, sliceIdx_of_ge_len s.length _ le_rfl]
  simp

theorem sliceIdx_le_slice_len (len : Nat) (q : Int) :
    sliceIdx len q ≤ sliceIdx len (len : Int) := by
  rw [sliceIdx_of_ge_len len _ le_rfl]
  exact sliceIdx_le_len len q

theorem segsText_cons (s : Segment) (l : List Segment) :
    segsText (s :: l) = s.text ++ segsText l := by
  simp [segsText]

theorem buildSegs_concat (text : List Char) : ∀ (anns : List AnnDoc) (L : Int), 0 ≤ L →
    (∀ a ∈ anns, a.start_index ≤ a.end_index) →
    segsText (buildSegs text anns L) = jsSlice text L (text.length : Int)
  | [], L, hL, _ => by
      unfold buildSegs
      split_ifs with hlt
      · simp [segsText]
      · rw [jsSlice_ge_len_empty text L (by omega)]
        simp [segsText]
  | ann :: rest, L, hL, hv => by
      have hae : ann.start_index ≤ ann.end_index := hv ann (by simp)
      have hrest : ∀ a ∈ rest, a.start_index ≤ a.end_index := fun a ha => hv a (by simp [ha])
      unfold buildSegs
      by_cases hs : ann.start_index > L <;> by_cases he : ann.end_index > L
      · simp only [if_pos hs, if_pos he]
        rw [List.singleton_append, segsText_cons, segsText_cons]
        rw [buildSegs_concat text rest ann.end_index (by omega) hrest]
        rw [max_eq_left (by omega)]
        rw [jsSlice_splice text ann.start_index ann.end_index (text.length : Int) (by omega)
          (by omega) (sliceIdx_le_slice_len _ _)]
        rw [jsSlice_splice text L ann.start_index (text.length : Int) hL (by omega)
          (sliceIdx_le_slice_len _ _)]
      · omega
      · simp only [if_neg hs, if_pos he, List.nil_append]
        rw [segsText_cons]
        rw [buildSegs_concat text rest ann.end_index (by omega) hrest]
        rw [max_eq_right (by omega)]
        rw [jsSlice_splice text L ann.end_index (text.length : Int) hL (by omega)
          (sliceIdx_le_slice_len _ _)]
      · simp only [if_neg hs, if_neg he, List.nil_append]
        exact buildSegs_concat text rest L hL hrest
theorem noAdjPlain_cons_of_highlight (s : Segment) (l : List Segment)
    (h : isPlainSeg s = false) : noAdjPlain (s :: l) = noAdjPlain l := by
  cases l with
  | nil => simp [noAdjPlain]
  | cons t rest => simp [noAdjPlain, h]

theorem buildSegs_noAdjPlain (text : List Char) : ∀ (anns : List AnnDoc) (L : Int),
    (∀ a ∈ anns, a.start_index < a.end_index) →
    noAdjPlain (buildSegs text anns L) = true
  | [], L, _ => by
      unfold buildSegs
      split_ifs <;> simp [noAdjPlain]
  | ann :: rest, L, hv => by
      have hae : ann.start_index < ann.end_index := hv ann (by simp)
      have hrest : ∀ a ∈ rest, a.start_index < a.end_index := fun a ha => hv a (by simp [ha])
      unfold buildSegs
      by_cases hs : ann.start_index > L <;> by_cases he : ann.end_index > L
      · simp only [if_pos hs, if_pos he, List.singleton_append]
        show noAdjPlain (_ :: _ :: _) = true
        rw [show (noAdjPlain (⟨jsSlice text L ann.start_index, SegKind.text, plainSegId L, none⟩ ::
          ⟨jsSlice text (max ann.start_index L) ann.end_index, SegKind.highlight, ann.id,
            some ann.tag_id⟩ :: buildSegs text rest ann.end_index)) =
          (!(isPlainSeg ⟨jsSlice text L ann.start_index, SegKind.text, plainSegId L, none⟩ &&
             isPlainSeg ⟨jsSlice text (max ann.start_index L) ann.end_index, SegKind.highlight,
               ann.id, some ann.tag_id⟩) &&
           noAdjPlain (⟨jsSlice text (max ann.start_index L) ann.end_index, SegKind.highlight,
             ann.id, some ann.tag_id⟩ :: buildSegs text rest ann.end_index)) from rfl]
        rw [noAdjPlain_cons_of_highlight _ _ (by simp [isPlainSeg])]
        rw [buildSegs_noAdjPlain text rest ann.end_index hrest]
        simp [isPlainSeg]
      · omega
      · simp only [if_neg hs, if_pos he, List.nil_append]
        rw [noAdjPlain_cons_of_highlight _ _ (by simp [isPlainSeg])]
        exact buildSegs_noAdjPlain text rest ann.end_index hrest
      · simp only [if_neg hs, if_neg he, List.nil_append]
        exact buildSegs_noAdjPlain text rest L hrest
theorem walkNodes_spec (offset : Nat) : ∀ (nodes : List (List Char)) (t acc : Nat),
    walkNodes offset nodes t acc =
      if t < nodes.length
      then ((acc + ((nodes.take t).map List.length).sum + offset : Nat) : Int)
      else -1
  | [], t, acc => by simp [walkNodes]
  | n :: rest, 0, acc => by simp [walkNodes]
  | n :: rest, t + 1, acc => by
      rw [show walkNodes offset (n :: rest) (t + 1) acc =
        walkNodes offset rest t (acc + n.length) from rfl]
      rw [walkNodes_spec offset rest t (acc + n.length)]
      simp only [List.length_cons, List.take_succ_cons, List.map_cons, List.sum_cons]
      split_ifs <;> omega

/-! ## The claims -/

/-- Claim C1: for every text and every span list in which each span
satisfies 0 ≤ start < end ≤ length of the text, concatenating in order
the text fields of the segments renderText builds yields exactly the
original text. -/
theorem renderText_concat_valid (text : List Char) (anns : List AnnDoc)
    (h : ∀ a ∈ anns, 0 ≤ a.start_index ∧ a.start_index < a.end_index ∧
      a.end_index ≤ (text.length : Int)) :
    segsText (renderText text anns) = text := by
  unfold renderText
  rw [buildSegs_concat text _ 0 le_rfl ?sorted]
  case sorted =>
    intro a ha
    have hmem : a ∈ anns := (List.perm_insertionSort _ anns).mem_iff.mp ha
    exact le_of_lt (h a hmem).2.1
  exact jsSlice_zero_len text

/-- Witness for C1: a single valid span over a six character text. -/
theorem renderText_concat_valid_witness :
    segsText (renderText "abcdef".data
      [⟨"a1", "p1", "u1", 1, 4, "t1", "bcd".data, "c0", "c0", none⟩]) = "abcdef".data :=
  renderText_concat_valid _ _ (by decide)

/-- Claim C2: for the span set spanA (0 to 10, tagA) and spanB (5 to 8,
tagB), sorted by start, renderText over any text of length 10 yields
exactly one highlight segment, covering offsets 0 to 10 for spanA; the
nested spanB contributes no segment at all. -/
theorem renderText_nested (text : List Char) (h : text.length = 10) :
    renderText text [spanA, spanB] =
      [⟨text, SegKind.highlight, "a1", some "tagA"⟩] := by
  unfold renderText
  have hsort : List.insertionSort (fun a b : AnnDoc => a.start_index ≤ b.start_index)
      [spanA, spanB] = [spanA, spanB] := by decide
  rw [hsort]
  have hslice : jsSlice text 0 10 = text := by
    unfold jsSlice sliceIdx
    rw [h]
    norm_num
    omega
  simp only [buildSegs, spanA, spanB, h]
  norm_num
  exact hslice

/-- Witness for C2 on the ten character text of the cached span
copies. -/
theorem renderText_nested_witness :
    renderText "abcdefghij".data [spanA, spanB] =
      [⟨"abcdefghij".data, SegKind.highlight, "a1", some "tagA"⟩] :=
  renderText_nested "abcdefghij".data (by decide)

/-- Counterexample for C3 as stated: the claim requires a failure
(OutOfBounds) when the local offset exceeds the referenced segment
length, but getAbsoluteOffset on a single two character node with local
offset 5 happily returns 5 instead of signalling failure (its only
failure channel is the sentinel -1). -/
theorem getAbsoluteOffset_no_bounds_check :
    getAbsoluteOffset ["ab".data] 0 5 = 5 ∧ getAbsoluteOffset ["ab".data] 0 5 ≠ -1 := by
  decide

/-- Claim C3 (amended): getAbsoluteOffset returns the accumulated start
offset of the referenced node plus the local offset whenever the node
exists — even when the local offset exceeds that node length, with no
OutOfBounds check — and returns the sentinel -1 (the sole failure
signal, standing for UnknownSegment) when the referenced node does not
exist in the sequence. -/
theorem getAbsoluteOffset_spec (nodes : List (List Char)) (node offset : Nat) :
    getAbsoluteOffset nodes node offset =
      if node < nodes.length
      then ((((nodes.take node).map List.length).sum + offset : Nat) : Int)
      else -1 := by
  unfold getAbsoluteOffset
  rw [walkNodes_spec offset nodes node 0]
  simp

/-- Counterexample for C4 as stated: the claim requires InvalidRange
whenever an offset lies outside 0 to the text length, but the insertion
path never consults the text at all; with a hypothetical text of length
10, a span reaching offset 11 is accepted and stored. -/
theorem insertSpan_out_of_range_accepted :
    insertSpan [] "p1" "u1" 0 11 "x".data "t1" "a9" "c0" =
      Except.ok [⟨"a9", "p1", "u1", 0, 11, "t1", "x".data, "c0", "c0", none⟩] := by
  rfl

/-- Claim C4 (amended): the insertion path stores nothing and fails with
InvalidRange exactly when start ≥ end or either offset equals -1 (the
resolver failure sentinel); in particular start = end fails.  Offsets
are never compared against the text bounds, so any other out-of-range
offsets are accepted. -/
theorem insertSpan_guard_spec (store : List AnnDoc) (paperId userId : String) (s e : Int)
    (selText : List Char) (tagId newId now : String) :
    (insertSpan store paperId userId s e selText tagId newId now =
        Except.error SpanError.InvalidRange ↔ (s = -1 ∨ e = -1 ∨ e ≤ s)) ∧
    (s ≠ -1 → e ≠ -1 → s < e →
      insertSpan store paperId userId s e selText tagId newId now =
        Except.ok (store ++ [⟨newId, paperId, userId, s, e, tagId, selText, now, now, none⟩])) := by
  unfold insertSpan handleMouseUpGuard
  constructor
  · split_ifs with hg
    · simp only [Bool.and_eq_true, bne_iff_ne, decide_eq_true_eq] at hg
      obtain ⟨⟨hs, he⟩, hlt⟩ := hg
      refine iff_of_false (by simp) ?_
      intro hor
      rcases hor with h | h | h <;> omega
    · simp only [Bool.and_eq_true, bne_iff_ne, decide_eq_true_eq, not_and, not_lt] at hg
      refine iff_of_true rfl ?_
      by_cases hs : s = -1
      · exact Or.inl hs
      · by_cases he : e = -1
        · exact Or.inr (Or.inl he)
        · exact Or.inr (Or.inr (hg ⟨hs, he⟩))
  · intro hs he hlt
    rw [if_pos]
    simp only [Bool.and_eq_true, bne_iff_ne, decide_eq_true_eq]
    exact ⟨⟨hs, he⟩, hlt⟩

/-- Witness for C4 (amended): a collapsed selection fails with
InvalidRange, a proper one is stored. -/
theorem insertSpan_guard_spec_witness :
    insertSpan [] "p1" "u1" 0 0 "x".data "t1" "a9" "c0" =
        Except.error SpanError.InvalidRange ∧
    insertSpan [] "p1" "u1" 2 5 "ab".data "t1" "a9" "c0" =
      Except.ok [⟨"a9", "p1", "u1", 2, 5, "t1", "ab".data, "c0", "c0", none⟩] :=
  ⟨(insertSpan_guard_spec [] "p1" "u1" 0 0 "x".data "t1" "a9" "c0").1.mpr (by decide),
   (insertSpan_guard_spec [] "p1" "u1" 2 5 "ab".data "t1" "a9" "c0").2
     (by decide) (by decide) (by decide)⟩

/-- Claim C5: clustering the labels Method, Methods and Result at
threshold 3 yields exactly two groups in this order: a group named
Method with members Method and Methods, then a group named Result whose
sole member is Result. -/
theorem groupTags_method_example :
    groupTags ["Method", "Methods", "Result"] 3 =
      [⟨"Method", ["Method", "Methods"]⟩, ⟨"Result", ["Result"]⟩] := by
  decide

/-- Claim C6: for every text and every span list in which each span
satisfies 0 ≤ start < end ≤ length of the text, no two adjacent segments
in the renderText output are both plain. -/
theorem renderText_noAdjPlain (text : List Char) (anns : List AnnDoc)
    (h : ∀ a ∈ anns, 0 ≤ a.start_index ∧ a.start_index < a.end_index ∧
      a.end_index ≤ (text.length : Int)) :
    noAdjPlain (renderText text anns) = true := by
  unfold renderText
  apply buildSegs_noAdjPlain
  intro a ha
  exact (h a ((List.perm_insertionSort _ anns).mem_iff.mp ha)).2.1

/-- Witness for C6: two overlapping valid spans over a six character
text. -/
theorem renderText_noAdjPlain_witness :
    noAdjPlain (renderText "abcdef".data
      [⟨"a1", "p1", "u1", 1, 4, "t1", "bcd".data, "c0", "c0", none⟩,
       ⟨"a2", "p1", "u1", 2, 6, "t2", "cdef".data, "c0", "c0", none⟩]) = true :=
  renderText_noAdjPlain _ _ (by decide)

/-- Claim C7: levenshteinDistance computes the Levenshtein edit distance
(levSpec, the textbook unit-cost insert/delete/substitute recursion) for
all strings; the distance of any string to the empty string is the other
string length, and the distance from kitten to sitting is 3. -/
theorem levenshteinDistance_spec :
    (∀ a b : String, levenshteinDistance a b = levSpec a.data b.data) ∧
    (∀ a : String, levenshteinDistance a "" = a.length ∧ levenshteinDistance "" a = a.length) ∧
    levenshteinDistance "kitten" "sitting" = 3 := by
  refine ⟨fun a b => levenshteinDistance_eq a b, fun a => ⟨?_, ?_⟩, by decide⟩
  · rw [levenshteinDistance_eq a ""]
    exact levSpec_nil_right a.data
  · rw [levenshteinDistance_eq "" a]
    exact levSpec_nil_left a.data

/-- Counterexample for C8 as stated: the claim requires NotFound for a
soft-deleted span id, but handleChangeTag on a store whose only document
is soft-deleted (deleted_at set) succeeds and retags that document. -/
theorem handleChangeTag_deleted_accepted :
    handleChangeTag [⟨"a1", "p1", "u1", 0, 3, "t1", "abc".data, "c0", "c0", some "d0"⟩]
        "a1" "t2" "u9" =
      Except.ok [⟨"a1", "p1", "u1", 0, 3, "t2", "abc".data, "c0", "u9", some "d0"⟩] := by
  rfl

/-- Claim C8 (amended): handleChangeTag fails with NotFound — leaving
every span unchanged — exactly when no document at all, live or
soft-deleted, has the given id; on a soft-deleted id it succeeds and
updates that document. -/
theorem handleChangeTag_notFound_iff (store : List AnnDoc) (annotationId newTagId now : String) :
    handleChangeTag store annotationId newTagId now = Except.error SpanError.NotFound ↔
      ∀ a ∈ store, a.id ≠ annotationId := by
  unfold handleChangeTag
  split_ifs with hany
  · simp only [List.any_eq_true, decide_eq_true_eq] at hany
    obtain ⟨a, ha, hid⟩ := hany
    exact iff_of_false (by simp) (fun hall => (hall a ha) hid)
  · simp only [List.any_eq_true, decide_eq_true_eq, not_exists, not_and] at hany
    exact iff_of_true rfl hany

/-- Witness for C8 (amended): retagging an id absent from the store
fails with NotFound. -/
theorem handleChangeTag_notFound_iff_witness :
    handleChangeTag [⟨"a1", "p1", "u1", 0, 3, "t1", "abc".data, "c0", "c0", none⟩]
        "zz" "t2" "u9" = Except.error SpanError.NotFound :=
  (handleChangeTag_notFound_iff
    [⟨"a1", "p1", "u1", 0, 3, "t1", "abc".data, "c0", "c0", none⟩] "zz" "t2" "u9").mpr
    (by decide)

/-- Claim C9: a successful handleChangeTag updates only the tag_id and
updated_at fields of the documents carrying the targeted id; their id,
offsets, cached text, creation time and tombstone, and every field of
every other document, are unchanged, position by position. -/
theorem handleChangeTag_frame (store result : List AnnDoc) (annotationId newTagId now : String)
    (h : handleChangeTag store annotationId newTagId now = Except.ok result) :
    result.length = store.length ∧
    ∀ i (hi : i < store.length) (hi2 : i < result.length),
      (result.get ⟨i, hi2⟩).id = (store.get ⟨i, hi⟩).id ∧
      (result.get ⟨i, hi2⟩).paper_id = (store.get ⟨i, hi⟩).paper_id ∧
      (result.get ⟨i, hi2⟩).user_id = (store.get ⟨i, hi⟩).user_id ∧
      (result.get ⟨i, hi2⟩).start_index = (store.get ⟨i, hi⟩).start_index ∧
      (result.get ⟨i, hi2⟩).end_index = (store.get ⟨i, hi⟩).end_index ∧
      (result.get ⟨i, hi2⟩).text_content = (store.get ⟨i, hi⟩).text_content ∧
      (result.get ⟨i, hi2⟩).created_at = (store.get ⟨i, hi⟩).created_at ∧
      (result.get ⟨i, hi2⟩).deleted_at = (store.get ⟨i, hi⟩).deleted_at ∧
      ((store.get ⟨i, hi⟩).id ≠ annotationId →
        result.get ⟨i, hi2⟩ = store.get ⟨i, hi⟩) ∧
      ((store.get ⟨i, hi⟩).id = annotationId →
        (result.get ⟨i, hi2⟩).tag_id = newTagId ∧
        (result.get ⟨i, hi2⟩).updated_at = now) := by
  unfold handleChangeTag at h
  split_ifs at h with hany
  have hres : result = store.map fun a =>
      if a.id = annotationId then { a with tag_id := newTagId, updated_at := now } else a :=
    (Except.ok.inj h).symm
  subst hres
  refine ⟨by simp, ?_⟩
  intro i hi hi2
  simp only [List.get_eq_getElem, List.getElem_map]
  by_cases hid : store[i].id = annotationId
  · simp [hid]
  · simp [hid]

/-- Witness for C9: the length part of the frame property for a
successful concrete retag. -/
theorem handleChangeTag_frame_witness :
    ([⟨"a1", "p1", "u1", 0, 3, "t2", "abc".data, "c0", "u9", none⟩] : List AnnDoc).length =
      ([⟨"a1", "p1", "u1", 0, 3, "t1", "abc".data, "c0", "c0", none⟩] : List AnnDoc).length :=
  (handleChangeTag_frame [⟨"a1", "p1", "u1", 0, 3, "t1", "abc".data, "c0", "c0", none⟩]
    [⟨"a1", "p1", "u1", 0, 3, "t2", "abc".data, "c0", "u9", none⟩] "a1" "t2" "u9"
    (by rfl)).1

/-- Claim C10: renderText is total and the concatenation round trip
holds beyond the bounds precondition: whenever every annotation merely
satisfies start_index ≤ end_index — end_index may exceed the text
length and start_index may be negative — the concatenation of the
produced segment texts still equals the text, because slice indices are
clamped. -/
theorem renderText_concat_clamped (text : List Char) (anns : List AnnDoc)
    (h : ∀ a ∈ anns, a.start_index ≤ a.end_index) :
    segsText (renderText text anns) = text := by
  unfold renderText
  rw [buildSegs_concat text _ 0 le_rfl ?sorted]
  case sorted =>
    intro a ha
    exact h a ((List.perm_insertionSort _ anns).mem_iff.mp ha)
  exact jsSlice_zero_len text

/-- Witness for C10: a span with negative start and an end beyond the
text length still concatenates back to the text. -/
theorem renderText_concat_clamped_witness :
    segsText (renderText "abc".data
      [⟨"a1", "p1", "u1", -2, 15, "t1", "x".data, "c0", "c0", none⟩]) = "abc".data :=
  renderText_concat_clamped _ _ (by decide)
